import Mathlib

/-!
Verification of the BM25 deterministic-equivalence checker
(tools/bm25_equiv.py and tools/bm25_equiv_strict.py).

The development shallowly embeds the Python source:
strings are Lean `String`s (lists of unicode scalar characters), Python
floats are idealised as real numbers, Python ints as `Int`/`Nat`, the
JSON counts object as a `String → Option Int` lookup, and Python's
stable `list.sort(key=(score, doc), reverse=True)` as sorting by the
strict linear order "key descending, original index ascending", which
is exactly the order the stable descending sort realises.
-/

namespace BM25Equiv

/-! ### Characters: Python whitespace, case mapping, word characters

`isPySpace` is the character class matched by Python's `\s` for `str`
patterns, which is also the set stripped by `str.strip()`: the ASCII
whitespace and separator control characters together with the Unicode
space separators. -/

def isPySpace (c : Char) : Bool :=
  (0x09 ≤ c.toNat && c.toNat ≤ 0x0D) || c.toNat == 0x20 ||
  (0x1C ≤ c.toNat && c.toNat ≤ 0x1F) || c.toNat == 0x85 || c.toNat == 0xA0 ||
  c.toNat == 0x1680 || (0x2000 ≤ c.toNat && c.toNat ≤ 0x200A) ||
  c.toNat == 0x2028 || c.toNat == 0x2029 || c.toNat == 0x202F ||
  c.toNat == 0x205F || c.toNat == 0x3000

/-- Case mapping used by the embedding of `str.lower()`.  The source
corpora are ranked by their `[a-z0-9]+` token content, so the mapping is
modelled on the basic-latin range (A–Z ↦ a–z), every other character
being fixed; this is `Char.toLower`. -/
def pyLower (c : Char) : Char := Char.toLower c

/-- Characters matched by the token pattern `[a-z0-9]+`. -/
def isWordChar (c : Char) : Bool :=
  ('a' ≤ c && c ≤ 'z') || ('0' ≤ c && c ≤ '9')

/-! ### Normalisation: `norm_ws_lower`

`re.sub(r"\s+", " ", s).strip().lower()`: collapse every maximal
whitespace run to one space, strip leading and trailing whitespace,
lower-case. -/

/-- One pass of `re.sub(r"\s+", " ", s)`.  The flag records whether the
previous character belonged to a whitespace run (in which case further
whitespace is absorbed into the already-emitted space). -/
def collapseWsAux : Bool → List Char → List Char
  | _, [] => []
  | prevWs, c :: rest =>
    if isPySpace c then
      if prevWs then collapseWsAux true rest
      else ' ' :: collapseWsAux true rest
    else c :: collapseWsAux false rest

def collapseWs (l : List Char) : List Char := collapseWsAux false l

/-- `str.strip()`: drop leading and trailing whitespace. -/
def stripWs (l : List Char) : List Char :=
  ((l.dropWhile isPySpace).reverse.dropWhile isPySpace).reverse

/-- `norm_ws_lower` from both source files. -/
def norm_ws_lower (s : String) : String :=
  ⟨(stripWs (collapseWs s.data)).map pyLower⟩

/-! ### Tokenizer: `WORD.findall(s.lower())` with `WORD = [a-z0-9]+` -/

/-- Accumulating scanner for the maximal `[a-z0-9]+` runs of a string;
`acc` holds the current (reversed) partial run. -/
def findWordsAux : List Char → List Char → List (List Char)
  | [], acc => if acc.isEmpty then [] else [acc.reverse]
  | c :: rest, acc =>
    if isWordChar c then findWordsAux rest (c :: acc)
    else if acc.isEmpty then findWordsAux rest []
    else acc.reverse :: findWordsAux rest []

/-- `tokenize` from both source files. -/
def tokenize (s : String) : List String :=
  (findWordsAux (s.data.map pyLower) []).map (fun cs => ⟨cs⟩)

/-- The combined query term list of `main`: the queries are tokenized and
concatenated (`q_terms += tokenize(q)`), so any run's term list is
`queryTerms queries`, an instance of the `q_terms` the claims quantify
over. -/
def queryTerms (queries : List String) : List String :=
  queries.flatMap tokenize

/-- No two adjacent characters are both whitespace. -/
def NoAdjWs (a b : Char) : Prop := isPySpace a = false ∨ isPySpace b = false

/-! ### Deterministic top-K selection

Python's `idx.sort(key=lambda i: (scores[i], docs[i]), reverse=True)` is a
stable descending sort: indices are ordered by strictly greater
`(score, doc)` key (tuples compare lexicographically), and indices with
equal keys keep their original (ascending) relative order.  That order on
indices is a decidable linear order, so the sorted result is the unique
`idxBefore`-sorted permutation of `range n`, which we obtain with
`List.insertionSort`. -/

structure TopEntry (α : Type) where
  rank : ℕ
  score : α
  doc : String
  idx : ℕ
deriving DecidableEq, Repr

structure ReconEntry (α : Type) where
  rank : ℕ
  score : α
  doc : String
deriving DecidableEq, Repr

structure MismatchRec (α : Type) where
  rank : ℕ
  full_doc : String
  full_score : α
  recon_doc : String
  recon_score : α
deriving DecidableEq, Repr

section Ranking

variable {α : Type} [LinearOrder α] [Inhabited α]

/-- Sort key of index `i`: the pair `(scores[i], docs[i])` compared
lexicographically, exactly Python's tuple comparison. -/
def rankKey (docs : List String) (scores : List α) (i : ℕ) : Lex (α × String) :=
  toLex (scores.getD i default, docs.getD i "")

/-- `i` is emitted before `j` by the stable descending sort: its key is
strictly greater, or the keys are equal and `i` comes first originally. -/
def idxBefore (docs : List String) (scores : List α) (i j : ℕ) : Prop :=
  rankKey docs scores j < rankKey docs scores i ∨
    (rankKey docs scores i = rankKey docs scores j ∧ i ≤ j)

instance (docs : List String) (scores : List α) :
    DecidableRel (idxBefore docs scores) := fun _ _ => by
  unfold idxBefore
  infer_instance

instance (docs : List String) (scores : List α) :
    IsTotal ℕ (idxBefore docs scores) := by
  refine ⟨fun i j => ?_⟩
  rcases lt_trichotomy (rankKey docs scores i) (rankKey docs scores j) with h | h | h
  · exact Or.inr (Or.inl h)
  · rcases Nat.le_total i j with hle | hle
    · exact Or.inl (Or.inr ⟨h, hle⟩)
    · exact Or.inr (Or.inr ⟨h.symm, hle⟩)
  · exact Or.inl (Or.inl h)

instance (docs : List String) (scores : List α) :
    IsTrans ℕ (idxBefore docs scores) := by
  refine ⟨fun i j k hij hjk => ?_⟩
  rcases hij with hij | ⟨hij, hij'⟩ <;> rcases hjk with hjk | ⟨hjk, hjk'⟩
  · exact Or.inl (hjk.trans hij)
  · exact Or.inl (hjk ▸ hij)
  · exact Or.inl (hij ▸ hjk)
  · exact Or.inr ⟨hij.trans hjk, hij'.trans hjk'⟩

instance (docs : List String) (scores : List α) :
    IsAntisymm ℕ (idxBefore docs scores) := by
  refine ⟨fun i j hij hji => ?_⟩
  rcases hij with hij | ⟨hij, hij'⟩ <;> rcases hji with hji | ⟨hji, hji'⟩
  · exact absurd hij (lt_asymm hji)
  · exact absurd hji hij.ne
  · exact absurd hij hji.ne
  · exact Nat.le_antisymm hij' hji'

/-- The sorted index list shared by `topk_docs`/`topk_full` and
`topk_reconstructed`. -/
def sortIdx (docs : List String) (scores : List α) : List ℕ :=
  List.insertionSort (idxBefore docs scores) (List.range docs.length)

/-- `topk_docs` (strict file) and `topk_full` (naive file): sort all
indices by `(score, doc)` descending with stable ties, truncate to `k`,
and decorate with 1-based ranks. -/
def topk_docs (docs : List String) (scores : List α) (k : ℕ) : List (TopEntry α) :=
  ((sortIdx docs scores).take k).enum.map (fun p =>
    { rank := p.1 + 1, score := scores.getD p.2 default,
      doc := docs.getD p.2 "", idx := p.2 })

/-- The emission loop of `topk_reconstructed`: walk the sorted unique
documents; for each, look its multiplicity up in the counts map
(`int(counts_map.get(doc, 1))`), emit `min(c, k - len(out))` copies with
sequential ranks, and stop once `k` entries exist. -/
def expandLoop (uds : List String) (us : List α) (cm : String → Option ℤ)
    (k : ℕ) : List ℕ → List (ReconEntry α) → List (ReconEntry α)
  | [], out => out
  | i :: rest, out =>
    if k ≤ out.length then out
    else
      expandLoop uds us cm k rest
        (out ++ (List.range (min ((cm (uds.getD i "")).getD 1)
            ((k : ℤ) - (out.length : ℤ))).toNat).map (fun t =>
          { rank := out.length + t + 1, score := us.getD i default,
            doc := uds.getD i "" }))

/-- `topk_reconstructed` from both source files. -/
def topk_reconstructed (uds : List String) (us : List α)
    (cm : String → Option ℤ) (k : ℕ) : List (ReconEntry α) :=
  expandLoop uds us cm k (sortIdx uds us) []

/-- The positional diff of `main`: compare document identity rank by rank
up to the shorter list, recording a `MismatchRec` where they differ. -/
def diffTopk (ft : List (TopEntry α)) (rt : List (ReconEntry α)) :
    List (MismatchRec α) :=
  (ft.zip rt).enum.filterMap (fun p =>
    if p.2.1.doc = p.2.2.doc then none
    else some { rank := p.1 + 1, full_doc := p.2.1.doc,
                full_score := p.2.1.score, recon_doc := p.2.2.doc,
                recon_score := p.2.2.score })

/-- Modelled from the spec (§4.5), for comparison with the loop in the
source: order the unique documents by the §4.4 rule, expand every class
to its full multiplicity (`count_map.get(doc, 1)` copies, each carrying
the class score), and truncate to the first `K` entries. -/
def reconSpec (uds : List String) (us : List α) (cm : String → Option ℤ)
    (k : ℕ) : List (String × α) :=
  ((sortIdx uds us).flatMap (fun i =>
    List.replicate ((cm (uds.getD i "")).getD 1).toNat
      (uds.getD i "", us.getD i default))).take k

/-- Total counted occurrences of the reduced corpus: the sum of the
per-document multiplicities (missing entries default to 1, negative
counts contribute nothing). -/
def totalCount (uds : List String) (cm : String → Option ℤ) : ℕ :=
  (uds.map (fun d => ((cm d).getD 1).toNat)).sum

/-- Document-level ranking relation induced by a per-document score:
`d1` ranks no worse than `d2`. -/
def docGE (g : String → α) (d1 d2 : String) : Prop :=
  toLex (g d2, d2) ≤ toLex (g d1, d1)

/-- The document sequence of the stable descending sort of `docs` when
every document is scored by `g`. -/
def sortedDocs (docs : List String) (g : String → α) : List String :=
  (sortIdx docs (docs.map g)).map (fun i => docs.getD i "")

end Ranking

/-! ### BM25 scoring

Python floats are idealised as real numbers.  `build_full_stats` (strict
file) and the corresponding inline statistics of `bm25_scores` (naive
file) compute the same `N`, `avgdl` and `df`. -/

def corpusToks (docs : List String) : List (List String) := docs.map tokenize

def corpusDl (docs : List String) : List ℕ := (corpusToks docs).map List.length

def corpusN (docs : List String) : ℕ := (corpusToks docs).length

/-- `avgdl = (sum(dl) / N) if N else 0.0`. -/
noncomputable def corpusAvgdl (docs : List String) : ℝ :=
  if corpusN docs = 0 then 0
  else ((corpusDl docs).sum : ℝ) / (corpusN docs : ℝ)

/-- `df[term]`: how many documents of the corpus contain `term` at least
once (set semantics: `df.update(set(t))`). -/
def corpusDf (docs : List String) (term : String) : ℕ :=
  (corpusToks docs).countP (fun t => decide (term ∈ t))

/-- `idf(term, N, df) = log((N - n + 0.5) / (n + 0.5) + 1.0)` with
`n = df.get(term, 0)` (the table is total here). -/
noncomputable def idf (term : String) (N : ℕ) (df : String → ℕ) : ℝ :=
  Real.log (((N : ℝ) - (df term : ℝ) + 0.5) / ((df term : ℝ) + 0.5) + 1.0)

/-- `bm25_score_doc(doc_tokens, q_terms, N, avgdl, df, k1, b)`: iterate
over the query terms in order, skip terms with zero raw frequency, and
accumulate `idf(q) * f*(k1+1) / (f + k1*(1 - b + b*(dl/avgdl if avgdl
else 0)))`.  The naive file's `bm25_scores` applies the same per-document
accumulation. -/
noncomputable def bm25_score_doc (doc_tokens q_terms : List String) (N : ℕ)
    (avgdl : ℝ) (df : String → ℕ) (k1 b : ℝ) : ℝ :=
  q_terms.foldl (fun s q =>
    if doc_tokens.count q = 0 then s
    else s + idf q N df * ((doc_tokens.count q : ℝ) * (k1 + 1.0) /
      ((doc_tokens.count q : ℝ) + k1 * (1.0 - b + b *
        (if avgdl = 0 then 0 else (doc_tokens.length : ℝ) / avgdl))))) 0

/-- The BM25 contribution of one query term, exactly as the spec writes
it; at raw frequency `0` this expression is itself `0`, which is why the
source's `continue` does not change the sum. -/
noncomputable def bm25Term (doc_tokens : List String) (N : ℕ) (avgdl : ℝ)
    (df : String → ℕ) (k1 b : ℝ) (q : String) : ℝ :=
  idf q N df * ((doc_tokens.count q : ℝ) * (k1 + 1.0) /
    ((doc_tokens.count q : ℝ) + k1 * (1.0 - b + b *
      (if avgdl = 0 then 0 else (doc_tokens.length : ℝ) / avgdl))))

/-! ### The strict pipeline instantiated at real-valued BM25 scores -/

/-- Full-corpus score list of the strict `main`:
`[bm25_score_doc(full_toks[i], q_terms, N, avgdl, df) for i in
range(len(full_docs))]`, with `N`, `avgdl`, `df` from `build_full_stats`. -/
noncomputable def strictFullScores (full_docs q_terms : List String) : List ℝ :=
  (List.range full_docs.length).map (fun i =>
    bm25_score_doc ((corpusToks full_docs).getD i []) q_terms
      (corpusN full_docs) (corpusAvgdl full_docs) (corpusDf full_docs)
      1.2 0.75)

/-- Reduced-corpus score list of the strict `main`: each REDUCED document
is tokenized and scored against the locked FULL statistics. -/
noncomputable def strictRedScores (full_docs red_docs q_terms : List String) :
    List ℝ :=
  red_docs.map (fun d =>
    bm25_score_doc (tokenize d) q_terms (corpusN full_docs)
      (corpusAvgdl full_docs) (corpusDf full_docs) 1.2 0.75)

/-- The per-document score function induced by locked FULL statistics: a
document's score depends only on its normalized string. -/
noncomputable def strictDocScore (full_docs q_terms : List String)
    (d : String) : ℝ :=
  bm25_score_doc (tokenize d) q_terms (corpusN full_docs)
    (corpusAvgdl full_docs) (corpusDf full_docs) 1.2 0.75

/-- The positional mismatch list the strict `main` computes and writes to
`bm25_diff.json`; the report states PASS exactly when it is empty. -/
noncomputable def strictDiff (full_docs red_docs : List String)
    (cm : String → Option ℤ) (q_terms : List String) (k : ℕ) :
    List (MismatchRec ℝ) :=
  diffTopk (topk_docs full_docs (strictFullScores full_docs q_terms) k)
    (topk_reconstructed red_docs
      (strictRedScores full_docs red_docs q_terms) cm k)

/-! ## Properties -/

theorem isPySpace_iff (c : Char) : isPySpace c = true ↔
    (0x09 ≤ c.toNat ∧ c.toNat ≤ 0x0D) ∨ c.toNat = 0x20 ∨
    (0x1C ≤ c.toNat ∧ c.toNat ≤ 0x1F) ∨ c.toNat = 0x85 ∨ c.toNat = 0xA0 ∨
    c.toNat = 0x1680 ∨ (0x2000 ≤ c.toNat ∧ c.toNat ≤ 0x200A) ∨
    c.toNat = 0x2028 ∨ c.toNat = 0x2029 ∨ c.toNat = 0x202F ∨
    c.toNat = 0x205F ∨ c.toNat = 0x3000 := by
  simp [isPySpace, Bool.or_eq_true, Bool.and_eq_true, or_assoc]

theorem toNat_ofNat_of_valid {n : ℕ} (h : n.isValidChar) :
    (Char.ofNat n).toNat = n := by
  unfold Char.ofNat
  rw [dif_pos h]
  rfl

theorem valid_of_lower {n : ℕ} (h1 : 97 ≤ n) (h2 : n ≤ 122) : n.isValidChar :=
  Or.inl (by omega)

theorem toNat_pyLower_of_upper {c : Char} (h1 : 65 ≤ c.toNat) (h2 : c.toNat ≤ 90) :
    (pyLower c).toNat = c.toNat + 32 := by
  unfold pyLower Char.toLower
  rw [if_pos ⟨h1, h2⟩]
  exact toNat_ofNat_of_valid (valid_of_lower (by omega) (by omega))

theorem pyLower_of_not_upper {c : Char} (h : ¬(65 ≤ c.toNat ∧ c.toNat ≤ 90)) :
    pyLower c = c := by
  unfold pyLower Char.toLower
  rw [if_neg h]

/-- The ASCII case mapping is idempotent. -/
theorem pyLower_pyLower (c : Char) : pyLower (pyLower c) = pyLower c := by
  by_cases h : 65 ≤ c.toNat ∧ c.toNat ≤ 90
  · have hc := toNat_pyLower_of_upper h.1 h.2
    exact pyLower_of_not_upper (by omega)
  · rw [pyLower_of_not_upper h, pyLower_of_not_upper h]

theorem isPySpace_eq_false_of_range {c : Char}
    (h1 : 65 ≤ c.toNat) (h2 : c.toNat ≤ 122) : isPySpace c = false := by
  rw [Bool.eq_false_iff]
  intro htrue
  rw [isPySpace_iff] at htrue
  omega

/-- Case mapping neither creates nor destroys whitespace. -/
theorem isPySpace_pyLower (c : Char) : isPySpace (pyLower c) = isPySpace c := by
  by_cases h : 65 ≤ c.toNat ∧ c.toNat ≤ 90
  · have hc := toNat_pyLower_of_upper h.1 h.2
    rw [isPySpace_eq_false_of_range h.1 (by omega),
      isPySpace_eq_false_of_range (c := pyLower c) (by omega) (by omega)]
  · rw [pyLower_of_not_upper h]

theorem pyLower_space (c : Char) (h : isPySpace c = true) : pyLower c = c := by
  apply pyLower_of_not_upper
  rw [isPySpace_iff] at h
  omega

/-! ### Idempotence of normalisation (claim C9) -/

theorem NoAdjWs.symm' {a b : Char} (h : NoAdjWs a b) : NoAdjWs b a := h.symm

theorem isPySpace_blank : isPySpace ' ' = true := by decide

/-- Every whitespace character emitted by the collapse pass is `' '`. -/
theorem collapse_space_blank :
    ∀ (l : List Char) (prev : Bool) (c : Char), c ∈ collapseWsAux prev l →
      isPySpace c = true → c = ' ' := by
  intro l
  induction l with
  | nil => intro prev c hc; simp [collapseWsAux] at hc
  | cons a rest ih =>
    intro prev c hc hsp
    by_cases ha : isPySpace a = true
    · simp only [collapseWsAux, ha, if_true] at hc
      cases prev with
      | true => exact ih true c hc hsp
      | false =>
        rcases List.mem_cons.mp hc with h | h
        · exact h
        · exact ih true c h hsp
    · simp only [collapseWsAux, ha, if_false] at hc
      rcases List.mem_cons.mp hc with h | h
      · subst h; exact absurd hsp (by simp [ha])
      · exact ih false c h hsp

/-- After a whitespace run has been entered, the next emitted character is
not whitespace. -/
theorem collapse_head_nospace :
    ∀ (l : List Char) (c : Char), (collapseWsAux true l).head? = some c →
      isPySpace c = false := by
  intro l
  induction l with
  | nil => intro c hc; simp [collapseWsAux] at hc
  | cons a rest ih =>
    intro c hc
    by_cases ha : isPySpace a = true
    · simp only [collapseWsAux, ha, if_true] at hc
      exact ih c hc
    · simp only [collapseWsAux, ha, Bool.false_eq_true, if_false,
        List.head?_cons, Option.some.injEq] at hc
      subst hc
      simpa using ha

/-- The collapse pass never emits two adjacent whitespace characters. -/
theorem collapse_chain :
    ∀ (l : List Char) (prev : Bool), List.Chain' NoAdjWs (collapseWsAux prev l) := by
  intro l
  induction l with
  | nil => intro prev; simp [collapseWsAux]
  | cons a rest ih =>
    intro prev
    by_cases ha : isPySpace a = true
    · cases prev with
      | true => simpa only [collapseWsAux, ha, if_true] using ih true
      | false =>
        simp only [collapseWsAux, ha, if_true]
        refine List.chain'_cons'.mpr ⟨?_, ih true⟩
        intro y hy
        exact Or.inr (collapse_head_nospace rest y hy)
    · simp only [collapseWsAux, ha, if_false]
      refine List.chain'_cons'.mpr ⟨?_, ih false⟩
      intro y _
      exact Or.inl (by simpa using ha)

theorem collapseWsAux_true_eq_false (l : List Char)
    (h : ∀ c, l.head? = some c → isPySpace c = false) :
    collapseWsAux true l = collapseWsAux false l := by
  cases l with
  | nil => rfl
  | cons a rest =>
    have ha : isPySpace a = false := h a rfl
    simp only [collapseWsAux, ha, Bool.false_eq_true, if_false]

/-- A list whose whitespace characters are all `' '`, with no two adjacent,
is a fixed point of the collapse pass. -/
theorem collapse_fixed :
    ∀ (l : List Char), (∀ c ∈ l, isPySpace c = true → c = ' ') →
      List.Chain' NoAdjWs l → collapseWsAux false l = l := by
  intro l
  induction l with
  | nil => intro _ _; rfl
  | cons a rest ih =>
    intro hblank hchain
    have hchain' : List.Chain' NoAdjWs rest := (List.chain'_cons'.mp hchain).2
    have hrest : ∀ c ∈ rest, isPySpace c = true → c = ' ' :=
      fun c hc => hblank c (List.mem_cons_of_mem a hc)
    by_cases ha : isPySpace a = true
    · have haeq : a = ' ' := hblank a (List.mem_cons_self a rest) ha
      simp only [collapseWsAux, ha, if_true]
      have hhead : ∀ c, rest.head? = some c → isPySpace c = false := by
        intro c hc
        rcases (List.chain'_cons'.mp hchain).1 c hc with h | h
        · exact absurd ha (by simp [h])
        · exact h
      rw [collapseWsAux_true_eq_false rest hhead, ih hrest hchain', haeq]
      simp
    · simp only [collapseWsAux, ha, Bool.false_eq_true, if_false,
        ih hrest hchain']

theorem dropWhile_eq_self_of_head {p : Char → Bool} {l : List Char}
    (h : ∀ c, l.head? = some c → p c = false) : l.dropWhile p = l := by
  cases l with
  | nil => rfl
  | cons a rest =>
    have := h a rfl
    simp [List.dropWhile_cons, this]

/-- A list with no leading and no trailing whitespace is a fixed point of
the strip pass. -/
theorem strip_fixed {l : List Char}
    (h1 : ∀ c, l.head? = some c → isPySpace c = false)
    (h2 : ∀ c, l.getLast? = some c → isPySpace c = false) :
    stripWs l = l := by
  unfold stripWs
  rw [dropWhile_eq_self_of_head h1]
  have h2' : ∀ c, l.reverse.head? = some c → isPySpace c = false := by
    intro c hc
    rw [List.head?_reverse] at hc
    exact h2 c hc
  rw [dropWhile_eq_self_of_head h2', List.reverse_reverse]

theorem head?_dropWhile_nospace (l : List Char) (c : Char)
    (h : (l.dropWhile isPySpace).head? = some c) : isPySpace c = false := by
  have := List.head?_dropWhile_not isPySpace l
  rw [h] at this
  exact this

/-- The last character of a stripped list is not whitespace. -/
theorem stripWs_getLast (l : List Char) (c : Char)
    (h : (stripWs l).getLast? = some c) : isPySpace c = false := by
  unfold stripWs at h
  rw [List.getLast?_reverse] at h
  exact head?_dropWhile_nospace _ c h

/-- The head character of a stripped list is not whitespace. -/
theorem stripWs_head (l : List Char) (c : Char)
    (h : (stripWs l).head? = some c) : isPySpace c = false := by
  unfold stripWs at h
  rw [List.head?_reverse] at h
  obtain ⟨w, hw⟩ := List.dropWhile_suffix (l := (l.dropWhile isPySpace).reverse) isPySpace
  have hlast : (l.dropWhile isPySpace).reverse.getLast? = some c := by
    rw [← hw, List.getLast?_append, h, Option.or_some]
  rw [List.getLast?_reverse] at hlast
  exact head?_dropWhile_nospace _ c hlast

theorem chain'_reverse_of_symm {l : List Char} (h : List.Chain' NoAdjWs l) :
    List.Chain' NoAdjWs l.reverse :=
  List.chain'_reverse.mpr (h.imp fun _ _ hab => hab.symm')

theorem stripWs_chain {l : List Char} (h : List.Chain' NoAdjWs l) :
    List.Chain' NoAdjWs (stripWs l) := by
  unfold stripWs
  exact chain'_reverse_of_symm
    (((chain'_reverse_of_symm
      (h.suffix (List.dropWhile_suffix isPySpace))).suffix
        (List.dropWhile_suffix isPySpace)))

theorem mem_stripWs {l : List Char} {c : Char} (h : c ∈ stripWs l) : c ∈ l := by
  unfold stripWs at h
  rw [List.mem_reverse] at h
  have h2 := (List.dropWhile_sublist isPySpace).mem h
  rw [List.mem_reverse] at h2
  exact (List.dropWhile_sublist isPySpace).mem h2

/-- C9 core: the normalised character list of `norm_ws_lower s` is a fixed
point of collapse, strip and lower-casing. -/
theorem norm_ws_lower_idem_data (s : String) :
    (stripWs (collapseWs (norm_ws_lower s).data)).map pyLower =
      (norm_ws_lower s).data := by
  set X := collapseWs s.data with hX
  have hdata : (norm_ws_lower s).data = (stripWs X).map pyLower := rfl
  set t : List Char := (stripWs X).map pyLower with ht
  have hblank : ∀ c ∈ t, isPySpace c = true → c = ' ' := by
    intro c hc hsp
    rcases List.mem_map.mp hc with ⟨d, hd, hdc⟩
    have hd' : d ∈ X := mem_stripWs hd
    have hsp' : isPySpace d = true := by
      rw [← isPySpace_pyLower d, hdc]; exact hsp
    have : d = ' ' := collapse_space_blank s.data false d hd' hsp'
    rw [← hdc, this]
    exact pyLower_space _ isPySpace_blank
  have hchain : List.Chain' NoAdjWs t := by
    have h1 : List.Chain' NoAdjWs X := collapse_chain s.data false
    have h2 : List.Chain' NoAdjWs (stripWs X) := stripWs_chain h1
    rw [ht]
    exact List.chain'_map_of_chain' pyLower
      (fun a b hab => by
        rcases hab with h | h
        · exact Or.inl (by rw [isPySpace_pyLower]; exact h)
        · exact Or.inr (by rw [isPySpace_pyLower]; exact h)) h2
  have hcollapse : collapseWs t = t := collapse_fixed t hblank hchain
  have hhead : ∀ c, t.head? = some c → isPySpace c = false := by
    intro c hc
    rw [ht, List.head?_map] at hc
    rcases Option.map_eq_some'.mp hc with ⟨d, hd, hdc⟩
    rw [← hdc, isPySpace_pyLower]
    exact stripWs_head X d hd
  have hlast : ∀ c, t.getLast? = some c → isPySpace c = false := by
    intro c hc
    rw [ht, List.getLast?_map] at hc
    rcases Option.map_eq_some'.mp hc with ⟨d, hd, hdc⟩
    rw [← hdc, isPySpace_pyLower]
    exact stripWs_getLast X d hd
  have hstrip : stripWs t = t := strip_fixed hhead hlast
  have hlower : t.map pyLower = t := by
    rw [ht, List.map_map]
    exact List.map_congr_left fun c _ => pyLower_pyLower c
  rw [hdata, hcollapse, hstrip, hlower]

/-- C9: normalisation (collapse whitespace runs, strip, lower-case) is
idempotent: `norm_ws_lower (norm_ws_lower s) = norm_ws_lower s` for every
string `s`. -/
theorem claim_C9_norm_idempotent (s : String) :
    norm_ws_lower (norm_ws_lower s) = norm_ws_lower s := by
  show (⟨(stripWs (collapseWs (norm_ws_lower s).data)).map pyLower⟩ : String) =
    norm_ws_lower s
  rw [norm_ws_lower_idem_data]

section SortFacts

variable {α : Type} [LinearOrder α] [Inhabited α]

/-! ### Basic facts about the sorted index list -/

theorem map_getD_range {β : Type} (l : List β) (d : β) :
    (List.range l.length).map (fun i => l.getD i d) = l := by
  induction l with
  | nil => rfl
  | cons a rest ih =>
    rw [List.length_cons, List.range_succ_eq_map, List.map_cons, List.map_map]
    have h : ((fun i => (a :: rest).getD i d) ∘ Nat.succ) =
        (fun i => rest.getD i d) := by
      funext i
      rfl
    rw [h]
    simp only [List.getD_cons_zero, ih]

theorem sortIdx_perm (docs : List String) (scores : List α) :
    List.Perm (sortIdx docs scores) (List.range docs.length) :=
  List.perm_insertionSort _ _

theorem sortIdx_sorted (docs : List String) (scores : List α) :
    List.Pairwise (idxBefore docs scores) (sortIdx docs scores) :=
  List.sorted_insertionSort _ _

theorem mem_sortIdx {docs : List String} {scores : List α} {i : ℕ}
    (h : i ∈ sortIdx docs scores) : i < docs.length :=
  List.mem_range.mp ((sortIdx_perm docs scores).mem_iff.mp h)

theorem sortIdx_length (docs : List String) (scores : List α) :
    (sortIdx docs scores).length = docs.length := by
  rw [(sortIdx_perm docs scores).length_eq, List.length_range]

/-! ### Claim C3: the Top-K Selector -/

theorem topk_docs_length (docs : List String) (scores : List α) (k : ℕ) :
    (topk_docs docs scores k).length = min k docs.length := by
  unfold topk_docs
  rw [List.length_map, List.enum_length, List.length_take, sortIdx_length]

theorem topk_docs_ranks (docs : List String) (scores : List α) (k : ℕ) :
    (topk_docs docs scores k).map (fun e => e.rank) =
      List.range' 1 (topk_docs docs scores k).length := by
  unfold topk_docs
  rw [List.map_map, List.length_map, List.enum_length]
  have h : ((fun e : TopEntry α => e.rank) ∘ (fun p : ℕ × ℕ =>
      ({ rank := p.1 + 1, score := scores.getD p.2 default,
         doc := docs.getD p.2 "", idx := p.2 } : TopEntry α))) =
      ((fun n => n + 1) ∘ Prod.fst) := rfl
  rw [h, ← List.map_map, List.enum_map_fst, List.range'_eq_map_range]
  refine List.map_congr_left fun x _ => ?_
  omega

theorem topk_docs_pairwise (docs : List String) (scores : List α) (k : ℕ) :
    (topk_docs docs scores k).Pairwise (fun e1 e2 =>
      e2.score < e1.score ∨ (e1.score = e2.score ∧ e2.doc ≤ e1.doc)) := by
  unfold topk_docs
  rw [List.pairwise_map]
  have hsorted : List.Pairwise (idxBefore docs scores)
      ((sortIdx docs scores).take k) :=
    List.Pairwise.sublist (List.take_sublist k _) (sortIdx_sorted docs scores)
  have henum : List.Pairwise (fun p q : ℕ × ℕ =>
      idxBefore docs scores p.2 q.2) ((sortIdx docs scores).take k).enum := by
    refine List.pairwise_map.mp ?_
    rwa [List.enum_map_snd]
  refine henum.imp ?_
  intro p q h
  rcases h with h | ⟨h, _⟩
  · rcases (Prod.Lex.lt_iff _ _).mp h with h' | ⟨h1, h2⟩
    · exact Or.inl h'
    · exact Or.inr ⟨h1.symm, h2.le⟩
  · have h' : (scores.getD p.2 default, docs.getD p.2 "") =
        (scores.getD q.2 default, docs.getD q.2 "") := congrArg ofLex h
    have hs := congrArg Prod.fst h'
    have hd := congrArg Prod.snd h'
    exact Or.inr ⟨hs, le_of_eq hd.symm⟩

theorem topk_docs_rank_getElem (docs : List String) (scores : List α) (k : ℕ)
    (p : ℕ) (hp : p < (topk_docs docs scores k).length) :
    ((topk_docs docs scores k)[p]).rank = 1 + p := by
  have hp' : p < ((topk_docs docs scores k).map (fun e => e.rank)).length := by
    rwa [List.length_map]
  have h := List.getElem_of_eq (topk_docs_ranks docs scores k) hp'
  rw [List.getElem_map] at h
  rw [h, List.getElem_range'_1]

/-- C3: the Top-K Selector returns `min k |docs|` entries, ranked `1..n`
in final order (no two share a rank), ordered by score descending with
ties broken by document string descending; among equal scores the
lexicographically greater document gets the smaller rank. -/
theorem claim_C3_topk_selector (docs : List String) (scores : List α) (k : ℕ)
    (hlen : scores.length = docs.length) :
    (topk_docs docs scores k).length = min k docs.length ∧
    (topk_docs docs scores k).map (fun e => e.rank) =
      List.range' 1 (topk_docs docs scores k).length ∧
    (topk_docs docs scores k).Pairwise (fun e1 e2 =>
      e2.score < e1.score ∨ (e1.score = e2.score ∧ e2.doc ≤ e1.doc)) ∧
    ∀ e1 ∈ topk_docs docs scores k, ∀ e2 ∈ topk_docs docs scores k,
      e1.score = e2.score → e2.doc < e1.doc → e1.rank < e2.rank := by
  refine ⟨topk_docs_length docs scores k, topk_docs_ranks docs scores k,
    topk_docs_pairwise docs scores k, ?_⟩
  intro e1 h1 e2 h2 hs hd
  rcases List.mem_iff_getElem.mp h1 with ⟨p1, hp1, he1⟩
  rcases List.mem_iff_getElem.mp h2 with ⟨p2, hp2, he2⟩
  have hpair := List.pairwise_iff_getElem.mp (topk_docs_pairwise docs scores k)
  rcases lt_trichotomy p1 p2 with hp | hp | hp
  · rw [← he1, ← he2, topk_docs_rank_getElem docs scores k p1 hp1,
      topk_docs_rank_getElem docs scores k p2 hp2]
    omega
  · exfalso
    subst hp
    rw [← he1, ← he2] at hd
    exact lt_irrefl _ hd
  · exfalso
    have := hpair p2 p1 hp2 hp1 hp
    rw [he1, he2] at this
    rcases this with h | ⟨h, h'⟩
    · rw [hs] at h
      exact lt_irrefl _ h
    · exact absurd hd h'.not_lt

/-! ### The Reconstruction Expander (claims C4, C5, C10) -/

theorem length_flatMap_sum {β γ : Type} (l : List β) (f : β → List γ) :
    (l.flatMap f).length = (l.map (fun b => (f b).length)).sum := by
  induction l with
  | nil => rfl
  | cons a rest ih => simp [List.flatMap_cons, ih]

theorem map_getD_range_comp {β γ : Type} (l : List β) (d : β) (g : β → γ) :
    (List.range l.length).map (fun i => g (l.getD i d)) = l.map g := by
  have h := congrArg (List.map g) (map_getD_range l d)
  rw [List.map_map] at h
  exact h

/-- The emission loop, characterised: it appends to `out` exactly the
first `k - |out|` entries of the full multiplicity expansion of the
remaining classes. -/
theorem expandLoop_pairs (uds : List String) (us : List α)
    (cm : String → Option ℤ) (k : ℕ) :
    ∀ (idxs : List ℕ) (out : List (ReconEntry α)),
    (expandLoop uds us cm k idxs out).map (fun e => (e.doc, e.score)) =
      out.map (fun e => (e.doc, e.score)) ++
      (idxs.flatMap (fun i =>
        List.replicate ((cm (uds.getD i "")).getD 1).toNat
          (uds.getD i "", us.getD i default))).take (k - out.length) := by
  intro idxs
  induction idxs with
  | nil =>
    intro out
    simp [expandLoop]
  | cons i rest ih =>
    intro out
    by_cases hk : k ≤ out.length
    · rw [Nat.sub_eq_zero_of_le hk]
      simp [expandLoop, hk]
    · have hlt : out.length < k := Nat.lt_of_not_le hk
      rw [show expandLoop uds us cm k (i :: rest) out =
          expandLoop uds us cm k rest
            (out ++ (List.range (min ((cm (uds.getD i "")).getD 1)
                ((k : ℤ) - (out.length : ℤ))).toNat).map (fun t =>
              { rank := out.length + t + 1, score := us.getD i default,
                doc := uds.getD i "" })) from by
        simp [expandLoop, hk]]
      rw [ih]
      set c : ℤ := (cm (uds.getD i "")).getD 1 with hc
      have htkn : (min c ((k : ℤ) - (out.length : ℤ))).toNat =
          min c.toNat (k - out.length) := by omega
      rw [List.map_append, List.map_map, List.length_append, List.length_map,
        List.length_range, List.flatMap_cons, List.take_append_eq_append_take,
        List.take_replicate, List.length_replicate]
      have hfun : ((fun e : ReconEntry α => (e.doc, e.score)) ∘ (fun t =>
          ({ rank := out.length + t + 1, score := us.getD i default,
             doc := uds.getD i "" } : ReconEntry α))) =
          (fun _ : ℕ => (uds.getD i "", us.getD i default)) := rfl
      have hmap : (List.range (min c ((k : ℤ) - (out.length : ℤ))).toNat).map
          ((fun e : ReconEntry α => (e.doc, e.score)) ∘ (fun t =>
            { rank := out.length + t + 1, score := us.getD i default,
              doc := uds.getD i "" })) =
          List.replicate (min (k - out.length) c.toNat)
            (uds.getD i "", us.getD i default) := by
        rw [hfun, List.map_const', List.length_range, htkn, Nat.min_comm]
      have harith : k - (out.length + (min c ((k : ℤ) - (out.length : ℤ))).toNat) =
          k - out.length - c.toNat := by omega
      rw [hmap, List.append_assoc, harith]

/-- `topk_reconstructed` emits, in order, exactly the document/score pairs
of the spec-side description `reconSpec`. -/
theorem topk_reconstructed_pairs (uds : List String) (us : List α)
    (cm : String → Option ℤ) (k : ℕ) :
    (topk_reconstructed uds us cm k).map (fun e => (e.doc, e.score)) =
      reconSpec uds us cm k := by
  unfold topk_reconstructed reconSpec
  have h := expandLoop_pairs uds us cm k (sortIdx uds us) []
  simpa using h

/-- Ranks are assigned sequentially, `1`-based, through the loop. -/
theorem expandLoop_ranks (uds : List String) (us : List α)
    (cm : String → Option ℤ) (k : ℕ) :
    ∀ (idxs : List ℕ) (out : List (ReconEntry α)),
    out.map (fun e => e.rank) = List.range' 1 out.length →
    (expandLoop uds us cm k idxs out).map (fun e => e.rank) =
      List.range' 1 (expandLoop uds us cm k idxs out).length := by
  intro idxs
  induction idxs with
  | nil =>
    intro out h
    simpa [expandLoop] using h
  | cons i rest ih =>
    intro out h
    by_cases hk : k ≤ out.length
    · simpa [expandLoop, hk] using h
    · rw [show expandLoop uds us cm k (i :: rest) out =
          expandLoop uds us cm k rest
            (out ++ (List.range (min ((cm (uds.getD i "")).getD 1)
                ((k : ℤ) - (out.length : ℤ))).toNat).map (fun t =>
              { rank := out.length + t + 1, score := us.getD i default,
                doc := uds.getD i "" })) from by
        simp [expandLoop, hk]]
      refine ih _ ?_
      rw [List.map_append, List.map_map, h, List.length_append,
        List.length_map, List.length_range]
      have hnew : (List.range (min ((cm (uds.getD i "")).getD 1)
          ((k : ℤ) - (out.length : ℤ))).toNat).map
          ((fun e : ReconEntry α => e.rank) ∘ (fun t =>
            { rank := out.length + t + 1, score := us.getD i default,
              doc := uds.getD i "" })) =
          List.range' (1 + out.length)
            (min ((cm (uds.getD i "")).getD 1)
              ((k : ℤ) - (out.length : ℤ))).toNat := by
        rw [List.range'_eq_map_range]
        refine List.map_congr_left fun t _ => ?_
        show out.length + t + 1 = 1 + out.length + t
        omega
      rw [hnew, List.range'_append_1]
      congr 1
      omega

theorem topk_reconstructed_ranks (uds : List String) (us : List α)
    (cm : String → Option ℤ) (k : ℕ) :
    (topk_reconstructed uds us cm k).map (fun e => e.rank) =
      List.range' 1 (topk_reconstructed uds us cm k).length :=
  expandLoop_ranks uds us cm k (sortIdx uds us) [] (by simp)

/-- C4: the Reconstruction Expander orders the unique documents by
(score desc, doc desc), walks that order emitting for each class
`min(count_map.get(doc, 1), remaining)` consecutive entries all carrying
the class score, stops at `K` entries, and assigns sequential 1-based
ranks — i.e. its document/score stream is the truncated-at-`K` full
multiplicity expansion of the sorted classes (`reconSpec`). -/
theorem claim_C4_expander (uds : List String) (us : List α)
    (cm : String → Option ℤ) (k : ℕ) :
    (topk_reconstructed uds us cm k).map (fun e => (e.doc, e.score)) =
      reconSpec uds us cm k ∧
    (topk_reconstructed uds us cm k).map (fun e => e.rank) =
      List.range' 1 (topk_reconstructed uds us cm k).length :=
  ⟨topk_reconstructed_pairs uds us cm k, topk_reconstructed_ranks uds us cm k⟩

theorem topk_reconstructed_length (uds : List String) (us : List α)
    (cm : String → Option ℤ) (k : ℕ) :
    (topk_reconstructed uds us cm k).length = min k (totalCount uds cm) := by
  have h := congrArg List.length (topk_reconstructed_pairs uds us cm k)
  rw [List.length_map] at h
  rw [h]
  unfold reconSpec
  rw [List.length_take, length_flatMap_sum]
  congr 1
  have hperm : List.Perm
      ((sortIdx uds us).map (fun i =>
        (List.replicate ((cm (uds.getD i "")).getD 1).toNat
          (uds.getD i "", us.getD i default)).length))
      ((List.range uds.length).map (fun i =>
        (List.replicate ((cm (uds.getD i "")).getD 1).toNat
          (uds.getD i "", us.getD i default)).length)) :=
    (sortIdx_perm uds us).map _
  rw [hperm.sum_eq]
  simp only [List.length_replicate]
  rw [map_getD_range_comp uds "" (fun d => ((cm d).getD 1).toNat)]
  rfl

/-- C5: the Expander never emits more than `K` entries, and emits exactly
`K` unless the reduced corpus has fewer than `K` total counted
occurrences. -/
theorem claim_C5_conservation (uds : List String) (us : List α)
    (cm : String → Option ℤ) (k : ℕ) :
    (topk_reconstructed uds us cm k).length ≤ k ∧
    (totalCount uds cm ≥ k → (topk_reconstructed uds us cm k).length = k) := by
  rw [topk_reconstructed_length]
  exact ⟨Nat.min_le_left _ _, fun h => Nat.min_eq_left h⟩

theorem flatMap_filter_pos (uds : List String) (us : List α)
    (cm : String → Option ℤ) :
    ∀ idxs : List ℕ,
    idxs.flatMap (fun i =>
      List.replicate ((cm (uds.getD i "")).getD 1).toNat
        (uds.getD i "", us.getD i default)) =
    (idxs.filter (fun i =>
        decide (0 < (cm (uds.getD i "")).getD 1))).flatMap (fun i =>
      List.replicate ((cm (uds.getD i "")).getD 1).toNat
        (uds.getD i "", us.getD i default)) := by
  intro idxs
  induction idxs with
  | nil => rfl
  | cons a rest ih =>
    rw [List.flatMap_cons, List.filter_cons]
    by_cases h : 0 < (cm (uds.getD a "")).getD 1
    · have hd : decide (0 < (cm (uds.getD a "")).getD 1) = true :=
        decide_eq_true h
      rw [hd, if_pos rfl, List.flatMap_cons, ih]
    · have hd : decide (0 < (cm (uds.getD a "")).getD 1) = false :=
        decide_eq_false h
      have hz : ((cm (uds.getD a "")).getD 1).toNat = 0 := by omega
      rw [hd, if_neg Bool.false_ne_true, hz, List.replicate_zero,
        List.nil_append, ih]

/-- C10: a class whose counts-map value is zero or negative contributes no
entries (every emitted entry has a strictly positive multiplicity), and
the walk simply continues with the remaining classes in tie-break order:
the output stream equals the truncated expansion of just the
positive-multiplicity classes. -/
theorem claim_C10_nonpositive_counts (uds : List String) (us : List α)
    (cm : String → Option ℤ) (k : ℕ) :
    (∀ e ∈ topk_reconstructed uds us cm k, 0 < (cm e.doc).getD 1) ∧
    (topk_reconstructed uds us cm k).map (fun e => (e.doc, e.score)) =
      (((sortIdx uds us).filter (fun i =>
          decide (0 < (cm (uds.getD i "")).getD 1))).flatMap (fun i =>
        List.replicate ((cm (uds.getD i "")).getD 1).toNat
          (uds.getD i "", us.getD i default))).take k := by
  constructor
  · intro e he
    have hpair : (e.doc, e.score) ∈
        (topk_reconstructed uds us cm k).map (fun e => (e.doc, e.score)) :=
      List.mem_map_of_mem _ he
    rw [topk_reconstructed_pairs] at hpair
    unfold reconSpec at hpair
    have h2 := List.mem_of_mem_take hpair
    rcases List.mem_flatMap.mp h2 with ⟨i, _, hrep⟩
    rcases List.mem_replicate.mp hrep with ⟨hne, heq⟩
    have hdoc : e.doc = uds.getD i "" := congrArg Prod.fst heq
    rw [hdoc]
    omega
  · rw [topk_reconstructed_pairs]
    unfold reconSpec
    rw [flatMap_filter_pos]

/-! ### Locked-statistics equivalence (claim C1)

With FULL statistics locked, a document's score is a function `g` of its
normalized string alone.  Two indices of FULL then carry equal
`(score, doc)` sort keys exactly when they hold the same document, so the
sorted FULL document sequence is the multiplicity expansion of the
sorted distinct documents — which is precisely what the Reconstruction
Expander emits when the counts map is exact. -/

theorem docGE_refl (g : String → α) (d : String) : docGE g d d := le_refl _

theorem docGE_antisymm {g : String → α} {d1 d2 : String}
    (h1 : docGE g d1 d2) (h2 : docGE g d2 d1) : d1 = d2 := by
  have h := le_antisymm h2 h1
  have h' : (g d1, d1) = (g d2, d2) := congrArg ofLex h
  exact congrArg Prod.snd h'

theorem getD_map_of_lt {β γ : Type} [Inhabited γ] (l : List β) (g : β → γ)
    (d : β) {i : ℕ} (h : i < l.length) :
    (l.map g).getD i default = g (l.getD i d) := by
  rw [List.getD_eq_getElem?_getD, List.getD_eq_getElem?_getD,
    List.getElem?_map, List.getElem?_eq_getElem h]
  rfl

theorem sortedDocs_perm (docs : List String) (g : String → α) :
    List.Perm (sortedDocs docs g) docs := by
  unfold sortedDocs
  have h := (sortIdx_perm docs (docs.map g)).map (fun i => docs.getD i "")
  rw [map_getD_range] at h
  exact h

theorem sortedDocs_sorted (docs : List String) (g : String → α) :
    List.Pairwise (docGE g) (sortedDocs docs g) := by
  unfold sortedDocs
  rw [List.pairwise_map]
  refine List.Pairwise.imp_of_mem ?_ (sortIdx_sorted docs (docs.map g))
  intro i j hi hj hij
  have hi' : i < docs.length := mem_sortIdx hi
  have hj' : j < docs.length := mem_sortIdx hj
  have hkey : ∀ {t : ℕ}, t < docs.length →
      rankKey docs (docs.map g) t =
        toLex (g (docs.getD t ""), docs.getD t "") := by
    intro t ht
    unfold rankKey
    rw [getD_map_of_lt docs g "" ht]
  unfold docGE
  rcases hij with h | ⟨h, _⟩
  · rw [hkey hi', hkey hj'] at h
    exact h.le
  · rw [hkey hi', hkey hj'] at h
    exact h.ge

/-- Count of an element in the full multiplicity expansion of a
duplicate-free list. -/
theorem count_flatMap_replicate (c : String → ℕ) (e : String) :
    ∀ (u : List String), u.Nodup →
    ((u.flatMap fun d => List.replicate (c d) d).count e) =
      if e ∈ u then c e else 0 := by
  intro u
  induction u with
  | nil => intro _; simp
  | cons a rest ih =>
    intro hnd
    rw [List.flatMap_cons, List.count_append, List.count_replicate,
      ih hnd.of_cons]
    by_cases he : e = a
    · subst he
      have hnm : e ∉ rest := (List.nodup_cons.mp hnd).1
      rw [if_pos (beq_self_eq_true e), if_neg hnm,
        if_pos (List.mem_cons_self e rest), Nat.add_zero]
    · rw [if_neg (by simpa using Ne.symm he)]
      by_cases hr : e ∈ rest
      · rw [if_pos hr, if_pos (List.mem_cons_of_mem a hr), Nat.zero_add]
      · rw [if_neg hr, if_neg (by simp [he, hr]), Nat.zero_add]

/-- The full multiplicity expansion of a sorted list is sorted (the
relation being reflexive, the copies inside one class are related, and
copies across classes inherit the class relation). -/
theorem pairwise_flatMap_replicate {r : String → String → Prop}
    (hrefl : ∀ d, r d d) (c : String → ℕ) :
    ∀ (u : List String), u.Pairwise r →
    (u.flatMap fun d => List.replicate (c d) d).Pairwise r := by
  intro u
  induction u with
  | nil => intro _; simp
  | cons a rest ih =>
    intro hp
    rw [List.flatMap_cons]
    rw [List.pairwise_append]
    refine ⟨List.pairwise_replicate.mpr (Or.inr (hrefl a)), ih hp.of_cons, ?_⟩
    intro x hx y hy
    have hxa : x = a := List.eq_of_mem_replicate hx
    rcases List.mem_flatMap.mp hy with ⟨d, hd, hyd⟩
    have hyd' : y = d := List.eq_of_mem_replicate hyd
    subst hxa
    subst hyd'
    exact (List.pairwise_cons.mp hp).1 y hd

/-- Core combinatorial fact: if `red` lists exactly the distinct
documents of `full` and every document's score is `g`, the sorted `full`
sequence is the multiplicity expansion of the sorted `red` sequence. -/
theorem sorted_expand_eq (full red : List String) (g : String → α)
    (hnd : red.Nodup)
    (h1 : ∀ d ∈ full, d ∈ red) (h2 : ∀ d ∈ red, d ∈ full) :
    sortedDocs full g =
      (sortedDocs red g).flatMap (fun d => List.replicate (full.count d) d) := by
  have hndS : (sortedDocs red g).Nodup := (sortedDocs_perm red g).nodup_iff.mpr hnd
  have hpermR : List.Perm
      ((sortedDocs red g).flatMap (fun d => List.replicate (full.count d) d))
      full := by
    rw [List.perm_iff_count]
    intro e
    rw [count_flatMap_replicate (fun d => full.count d) e (sortedDocs red g) hndS]
    by_cases he : e ∈ sortedDocs red g
    · rw [if_pos he]
    · rw [if_neg he]
      have he' : e ∉ full := by
        intro hf
        exact he ((sortedDocs_perm red g).mem_iff.mpr (h1 e hf))
      exact (List.count_eq_zero.mpr he').symm
  have hperm : List.Perm (sortedDocs full g)
      ((sortedDocs red g).flatMap (fun d => List.replicate (full.count d) d)) :=
    (sortedDocs_perm full g).trans hpermR.symm
  have hs1 : List.Pairwise (docGE g) (sortedDocs full g) :=
    sortedDocs_sorted full g
  have hs2 : List.Pairwise (docGE g)
      ((sortedDocs red g).flatMap (fun d => List.replicate (full.count d) d)) :=
    pairwise_flatMap_replicate (docGE_refl g) _ _ (sortedDocs_sorted red g)
  exact @List.eq_of_perm_of_sorted String (docGE g)
    ⟨fun _ _ ha hb => docGE_antisymm ha hb⟩ _ _ hperm hs1 hs2

theorem topk_docs_docseq (docs : List String) (scores : List α) (k : ℕ) :
    (topk_docs docs scores k).map (fun e => e.doc) =
      ((sortIdx docs scores).take k).map (fun i => docs.getD i "") := by
  unfold topk_docs
  rw [List.map_map]
  have hfun : ((fun e : TopEntry α => e.doc) ∘ (fun p : ℕ × ℕ =>
      ({ rank := p.1 + 1, score := scores.getD p.2 default,
         doc := docs.getD p.2 "", idx := p.2 } : TopEntry α))) =
      ((fun i => docs.getD i "") ∘ Prod.snd) := rfl
  rw [hfun, ← List.map_map, List.enum_map_snd]

theorem topk_reconstructed_docseq (uds : List String) (us : List α)
    (cm : String → Option ℤ) (k : ℕ) :
    (topk_reconstructed uds us cm k).map (fun e => e.doc) =
      ((sortIdx uds us).flatMap (fun i =>
        List.replicate ((cm (uds.getD i "")).getD 1).toNat
          (uds.getD i ""))).take k := by
  have h := congrArg (List.map Prod.fst) (topk_reconstructed_pairs uds us cm k)
  rw [List.map_map] at h
  have hfun : (Prod.fst ∘ (fun e : ReconEntry α => (e.doc, e.score))) =
      (fun e : ReconEntry α => e.doc) := rfl
  rw [hfun] at h
  rw [h]
  unfold reconSpec
  rw [List.map_take, List.map_flatMap]
  simp only [List.map_replicate]

theorem flatMap_congr_mem {β γ : Type} {l : List β} {f f' : β → List γ}
    (h : ∀ a ∈ l, f a = f' a) : l.flatMap f = l.flatMap f' := by
  induction l with
  | nil => rfl
  | cons a rest ih =>
    rw [List.flatMap_cons, List.flatMap_cons, h a (List.mem_cons_self a rest),
      ih fun b hb => h b (List.mem_cons_of_mem a hb)]

theorem zip_docs_eq :
    ∀ (ft : List (TopEntry α)) (rt : List (ReconEntry α)),
    ft.map (fun e => e.doc) = rt.map (fun e => e.doc) →
    ∀ p ∈ ft.zip rt, p.1.doc = p.2.doc := by
  intro ft
  induction ft with
  | nil =>
    intro rt h p hp
    simp at hp
  | cons a ftr ih =>
    intro rt h p hp
    cases rt with
    | nil => simp at hp
    | cons b rtr =>
      rw [List.map_cons, List.map_cons, List.cons_eq_cons] at h
      rw [List.zip_cons_cons] at hp
      rcases List.mem_cons.mp hp with hp' | hp'
      · subst hp'
        exact h.1
      · exact ih rtr h.2 p hp'

/-- If the two top-K lists agree on document identity position by
position, the diff is empty (the report says PASS). -/
theorem diffTopk_eq_nil {ft : List (TopEntry α)} {rt : List (ReconEntry α)}
    (h : ft.map (fun e => e.doc) = rt.map (fun e => e.doc)) :
    diffTopk ft rt = [] := by
  unfold diffTopk
  rw [List.filterMap_eq_nil_iff]
  intro p hp
  have hmem : p.2 ∈ ft.zip rt := by
    have h2 := List.enum_map_snd (ft.zip rt)
    have h3 : p.2 ∈ (ft.zip rt).enum.map Prod.snd :=
      List.mem_map_of_mem Prod.snd hp
    rwa [h2] at h3
  rw [if_pos (zip_docs_eq ft rt h p.2 hmem)]

/-- Generic locked-statistics equivalence: when each document is scored
by a fixed function `g` of its string, `red` is duplicate-free with the
same members as `full`, and the counts map returns the exact `full`
occurrence counts, the positional diff of the full top-K against the
reconstructed top-K is empty. -/
theorem strict_equiv_core (full red : List String) (g : String → α)
    (cm : String → Option ℤ) (k : ℕ)
    (hnd : red.Nodup)
    (h1 : ∀ d ∈ full, d ∈ red) (h2 : ∀ d ∈ red, d ∈ full)
    (hcm : ∀ d ∈ red, (cm d).getD 1 = (full.count d : ℤ)) :
    diffTopk (topk_docs full (full.map g) k)
      (topk_reconstructed red (red.map g) cm k) = [] := by
  apply diffTopk_eq_nil
  have hfull : (topk_docs full (full.map g) k).map (fun e => e.doc) =
      (sortedDocs full g).take k := by
    rw [topk_docs_docseq, List.map_take]
    rfl
  have hstep1 : (sortIdx red (red.map g)).flatMap (fun i =>
      List.replicate ((cm (red.getD i "")).getD 1).toNat (red.getD i "")) =
      (sortedDocs red g).flatMap (fun d =>
        List.replicate ((cm d).getD 1).toNat d) := by
    unfold sortedDocs
    rw [List.flatMap_map]
  have hstep2 : (sortedDocs red g).flatMap (fun d =>
      List.replicate ((cm d).getD 1).toNat d) =
      (sortedDocs red g).flatMap (fun d =>
        List.replicate (full.count d) d) := by
    apply flatMap_congr_mem
    intro d hd
    have hdred : d ∈ red := (sortedDocs_perm red g).mem_iff.mp hd
    rw [hcm d hdred, Int.toNat_ofNat]
  have hred : (topk_reconstructed red (red.map g) cm k).map (fun e => e.doc) =
      (sortedDocs full g).take k := by
    rw [topk_reconstructed_docseq, hstep1, hstep2,
      ← sorted_expand_eq full red g hnd h1 h2]
  rw [hfull, hred]

end SortFacts

theorem foldl_add_map {β : Type} (g : β → ℝ) :
    ∀ (l : List β) (init : ℝ),
    l.foldl (fun s q => s + g q) init = init + (l.map g).sum := by
  intro l
  induction l with
  | nil => intro init; simp
  | cons a rest ih =>
    intro init
    rw [List.foldl_cons, ih, List.map_cons, List.sum_cons]
    ring

/-- The scorer is the sum, over the query terms in order and without
deduplication, of the per-term BM25 contributions. -/
theorem bm25_score_eq_sum (doc_tokens q_terms : List String) (N : ℕ)
    (avgdl : ℝ) (df : String → ℕ) (k1 b : ℝ) :
    bm25_score_doc doc_tokens q_terms N avgdl df k1 b =
      (q_terms.map (bm25Term doc_tokens N avgdl df k1 b)).sum := by
  unfold bm25_score_doc
  have hfun : (fun (s : ℝ) (q : String) =>
      if doc_tokens.count q = 0 then s
      else s + idf q N df * ((doc_tokens.count q : ℝ) * (k1 + 1.0) /
        ((doc_tokens.count q : ℝ) + k1 * (1.0 - b + b *
          (if avgdl = 0 then 0 else (doc_tokens.length : ℝ) / avgdl))))) =
      (fun s q => s + bm25Term doc_tokens N avgdl df k1 b q) := by
    funext s q
    by_cases h : doc_tokens.count q = 0
    · rw [if_pos h]
      unfold bm25Term
      rw [h, Nat.cast_zero, zero_mul, zero_div, mul_zero, add_zero]
    · rw [if_neg h]
      rfl
  rw [hfun, foldl_add_map, zero_add]

/-- C2: for every document token sequence, query list and statistics, the
scorer with the default `k1 = 1.2`, `b = 0.75` returns the sum over the
query terms (in order, repeats not deduplicated) of
`idf(q) * f*(k1+1) / (f + k1*(1 - b + b*(doclen/avgdl)))`, with
`doclen/avgdl` taken as `0` when `avgdl = 0` and a term of frequency `0`
contributing nothing. -/
theorem claim_C2_scorer (doc_tokens q_terms : List String) (N : ℕ)
    (avgdl : ℝ) (df : String → ℕ) :
    bm25_score_doc doc_tokens q_terms N avgdl df 1.2 0.75 =
      (q_terms.map (bm25Term doc_tokens N avgdl df 1.2 0.75)).sum :=
  bm25_score_eq_sum doc_tokens q_terms N avgdl df 1.2 0.75

/-! ### Sign and monotonicity of the scorer (claims C8, C7) -/

/-- Every statistics snapshot the program builds satisfies the C7/C8
well-formedness hypothesis `df[t] ≤ N`: a term occurs in at most all
documents. -/
theorem corpusDf_le_corpusN (docs : List String) (t : String) :
    corpusDf docs t ≤ corpusN docs :=
  List.countP_le_length _

/-- Every statistics snapshot the program builds satisfies the C7/C8
well-formedness hypothesis `0 ≤ avgdl`: the average of token lengths is
non-negative (and `0` for the empty corpus). -/
theorem corpusAvgdl_nonneg (docs : List String) : 0 ≤ corpusAvgdl docs := by
  unfold corpusAvgdl
  by_cases h : corpusN docs = 0
  · rw [if_pos h]
  · rw [if_neg h]
    exact div_nonneg (Nat.cast_nonneg _) (Nat.cast_nonneg _)

theorem idf_nonneg {term : String} {N : ℕ} {df : String → ℕ}
    (h : df term ≤ N) : 0 ≤ idf term N df := by
  unfold idf
  apply Real.log_nonneg
  have h1 : (0 : ℝ) ≤ (N : ℝ) - (df term : ℝ) + 0.5 := by
    have := (Nat.cast_le (α := ℝ)).mpr h
    linarith
  have h2 : (0 : ℝ) < (df term : ℝ) + 0.5 := by positivity
  have h3 : (0 : ℝ) ≤ ((N : ℝ) - (df term : ℝ) + 0.5) / ((df term : ℝ) + 0.5) :=
    div_nonneg h1 h2.le
  linarith

theorem lengthNorm_nonneg {avgdl : ℝ} (havg : 0 ≤ avgdl) (dl : ℕ) :
    0 ≤ (if avgdl = 0 then (0 : ℝ) else (dl : ℝ) / avgdl) := by
  by_cases h : avgdl = 0
  · rw [if_pos h]
  · rw [if_neg h]
    exact div_nonneg (Nat.cast_nonneg dl) havg

theorem bm25Term_nonneg (doc_tokens : List String) {N : ℕ} {avgdl : ℝ}
    {df : String → ℕ} (q : String) (hdf : df q ≤ N) (havg : 0 ≤ avgdl) :
    0 ≤ bm25Term doc_tokens N avgdl df 1.2 0.75 q := by
  unfold bm25Term
  have hL := lengthNorm_nonneg havg doc_tokens.length
  have hfrac : (0 : ℝ) ≤ (doc_tokens.count q : ℝ) * (1.2 + 1.0) /
      ((doc_tokens.count q : ℝ) + 1.2 * (1.0 - 0.75 + 0.75 *
        (if avgdl = 0 then 0 else (doc_tokens.length : ℝ) / avgdl))) := by
    apply div_nonneg
    · positivity
    · have : (0 : ℝ) ≤ (doc_tokens.count q : ℝ) := Nat.cast_nonneg _
      nlinarith
  exact mul_nonneg (idf_nonneg hdf) hfrac

/-- C8: with well-formed statistics (`df[q] ≤ N` for every term, and a
non-negative average document length), every score is a non-negative real
number, and it is exactly `0` when no query term occurs in the document. -/
theorem claim_C8_nonneg_score (doc_tokens q_terms : List String) (N : ℕ)
    (avgdl : ℝ) (df : String → ℕ)
    (hdf : ∀ t, df t ≤ N) (havg : 0 ≤ avgdl) :
    0 ≤ bm25_score_doc doc_tokens q_terms N avgdl df 1.2 0.75 ∧
    ((∀ q ∈ q_terms, doc_tokens.count q = 0) →
      bm25_score_doc doc_tokens q_terms N avgdl df 1.2 0.75 = 0) := by
  rw [bm25_score_eq_sum]
  constructor
  · apply List.sum_nonneg
    intro x hx
    rcases List.mem_map.mp hx with ⟨q, _, hq⟩
    rw [← hq]
    exact bm25Term_nonneg doc_tokens q (hdf q) havg
  · intro hzero
    apply List.sum_eq_zero
    intro x hx
    rcases List.mem_map.mp hx with ⟨q, hqmem, hq⟩
    rw [← hq]
    unfold bm25Term
    rw [hzero q hqmem, Nat.cast_zero, zero_mul, zero_div, mul_zero]

/-- Monotonicity of a single term's contribution in the raw frequency. -/
theorem bm25Term_mono {d1 d2 : List String} {N : ℕ} {avgdl : ℝ}
    {df : String → ℕ} (q : String) (hdf : df q ≤ N) (havg : 0 ≤ avgdl)
    (hlen : d1.length = d2.length) (hcnt : d1.count q ≤ d2.count q) :
    bm25Term d1 N avgdl df 1.2 0.75 q ≤ bm25Term d2 N avgdl df 1.2 0.75 q := by
  unfold bm25Term
  rw [← hlen]
  set L : ℝ := (if avgdl = 0 then 0 else (d1.length : ℝ) / avgdl) with hL
  have hLpos : 0 ≤ L := lengthNorm_nonneg havg d1.length
  set C : ℝ := 1.2 * (1.0 - 0.75 + 0.75 * L) with hC
  have hCpos : (0 : ℝ) < C := by rw [hC]; nlinarith
  set f1 : ℝ := (d1.count q : ℝ) with hf1
  set f2 : ℝ := (d2.count q : ℝ) with hf2
  have hf1n : 0 ≤ f1 := Nat.cast_nonneg _
  have hf12 : f1 ≤ f2 := Nat.cast_le.mpr hcnt
  have hden1 : (0 : ℝ) < f1 + C := by linarith
  have hden2 : (0 : ℝ) < f2 + C := by linarith
  have hdiv : f1 * (1.2 + 1.0) / (f1 + C) ≤ f2 * (1.2 + 1.0) / (f2 + C) := by
    rw [div_le_div_iff hden1 hden2]
    nlinarith
  exact mul_le_mul_of_nonneg_left hdiv (idf_nonneg hdf)

/-- C7: for fixed query and well-formed statistics, increasing the raw
frequency of one query term `q0` without changing the document length
(all other query-term frequencies unchanged) never decreases the score. -/
theorem claim_C7_monotone_scoring (q_terms : List String) (N : ℕ)
    (avgdl : ℝ) (df : String → ℕ) (d1 d2 : List String) (q0 : String)
    (hdf : ∀ t, df t ≤ N) (havg : 0 ≤ avgdl)
    (hlen : d1.length = d2.length)
    (hothers : ∀ q ∈ q_terms, q ≠ q0 → d1.count q = d2.count q)
    (hq0 : d1.count q0 < d2.count q0) :
    bm25_score_doc d1 q_terms N avgdl df 1.2 0.75 ≤
      bm25_score_doc d2 q_terms N avgdl df 1.2 0.75 := by
  rw [bm25_score_eq_sum, bm25_score_eq_sum]
  apply List.sum_le_sum
  intro q hq
  by_cases hq0' : q = q0
  · subst hq0'
    exact bm25Term_mono q (hdf q) havg hlen hq0.le
  · exact bm25Term_mono q (hdf q) havg hlen (le_of_eq (hothers q hq hq0'))

/-! ### The empty statistics corpus (claim C6)

`avgdl` is indeed `0` for the empty corpus, but a *document scored
against* those statistics does not necessarily score `0`: with `N = 0`
and `df` empty, `idf(q) = ln 2 > 0`, so any document containing a query
term scores strictly positively.  In the program only the documents *of*
the corpus are scored with its statistics in the naive file, and their
score list is empty; the strict file, however, would score nonempty
REDUCED documents against an empty FULL corpus this way. -/

/-- Counterexample to C6 as stated: against the empty-corpus statistics
(`N = 0`, `avgdl = 0`, empty `df`), the document `["cat"]` queried with
`["cat"]` receives a strictly positive score, not `0`. -/
theorem claim_C6_counterexample :
    corpusAvgdl [] = 0 ∧
    bm25_score_doc ["cat"] ["cat"] (corpusN []) (corpusAvgdl [])
      (corpusDf []) 1.2 0.75 ≠ 0 := by
  have hA : corpusAvgdl [] = 0 := by
    unfold corpusAvgdl
    exact if_pos rfl
  refine ⟨hA, ?_⟩
  have hN : corpusN [] = 0 := rfl
  have hdf : corpusDf [] "cat" = 0 := rfl
  rw [bm25_score_eq_sum, hA, hN, List.map_cons, List.map_nil, List.sum_cons,
    List.sum_nil, add_zero]
  unfold bm25Term idf
  rw [hdf]
  have hcount : (["cat"] : List String).count "cat" = 1 := by decide
  rw [hcount, if_pos rfl]
  have hlog : 0 < Real.log ((((0 : ℕ) : ℝ) - ((0 : ℕ) : ℝ) + 0.5) /
      (((0 : ℕ) : ℝ) + 0.5) + 1.0) := by
    apply Real.log_pos
    norm_num
  have hfrac : (0 : ℝ) < ((1 : ℕ) : ℝ) * (1.2 + 1.0) /
      (((1 : ℕ) : ℝ) + 1.2 * (1.0 - 0.75 + 0.75 * 0)) := by
    norm_num
  exact ne_of_gt (mul_pos hlog hfrac)

theorem strictFullScores_eq (full_docs q_terms : List String) :
    strictFullScores full_docs q_terms =
      full_docs.map (strictDocScore full_docs q_terms) := by
  unfold strictFullScores
  have hlen : full_docs.length = (corpusToks full_docs).length :=
    (List.length_map _ _).symm
  rw [hlen, map_getD_range_comp (corpusToks full_docs) [] (fun dt =>
    bm25_score_doc dt q_terms (corpusN full_docs) (corpusAvgdl full_docs)
      (corpusDf full_docs) 1.2 0.75)]
  unfold corpusToks
  rw [List.map_map]
  rfl

theorem strictRedScores_eq (full_docs red_docs q_terms : List String) :
    strictRedScores full_docs red_docs q_terms =
      red_docs.map (strictDocScore full_docs q_terms) := rfl

/-- C1: in locked-statistics mode, if REDUCED lists exactly the distinct
normalized documents of FULL (duplicate-free, same membership) and the
counts map gives every REDUCED document its true FULL occurrence count,
then for every query term list and every `K ≤ |FULL|` the positional
diff of the FULL top-K against the reconstructed top-K is empty — the
report states PASS. -/
theorem claim_C1_locked_statistics (full_docs red_docs : List String)
    (cm : String → Option ℤ) (q_terms : List String) (k : ℕ)
    (hnd : red_docs.Nodup)
    (h1 : ∀ d ∈ full_docs, d ∈ red_docs)
    (h2 : ∀ d ∈ red_docs, d ∈ full_docs)
    (hcm : ∀ d ∈ red_docs, (cm d).getD 1 = (full_docs.count d : ℤ))
    (hk : k ≤ full_docs.length) :
    strictDiff full_docs red_docs cm q_terms k = [] := by
  unfold strictDiff
  rw [strictFullScores_eq, strictRedScores_eq]
  exact strict_equiv_core full_docs red_docs
    (strictDocScore full_docs q_terms) cm k hnd h1 h2 hcm

/-- C6 amended: for the empty statistics corpus, `avgdl` is `0` and the
score list computed over that corpus is empty — vacuously every score of
a document of the empty corpus is `0`.  (As `claim_C6_counterexample`
shows, a document from *outside* the corpus scored against these
statistics can receive a nonzero score, so the original universal claim
fails.) -/
theorem claim_C6_amended (q_terms : List String) :
    corpusAvgdl [] = 0 ∧ strictFullScores [] q_terms = [] :=
  ⟨if_pos rfl, rfl⟩

/-! ### Concrete witnesses -/

theorem claim_C1_witness :
    strictDiff ["cat dog", "cat dog", "bird"] ["cat dog", "bird"]
      (fun d => if d = "cat dog" then some 2 else
        if d = "bird" then some 1 else none) ["cat"] 3 = [] :=
  claim_C1_locked_statistics _ _ _ _ _ (by decide) (by decide) (by decide)
    (by decide) (by decide)

theorem claim_C3_witness :
    (topk_docs ["a", "b"] [(1 : ℚ), 1] 5).length = min 5 2 ∧
    (topk_docs ["a", "b"] [(1 : ℚ), 1] 5).map (fun e => e.rank) =
      List.range' 1 (topk_docs ["a", "b"] [(1 : ℚ), 1] 5).length ∧
    (topk_docs ["a", "b"] [(1 : ℚ), 1] 5).Pairwise (fun e1 e2 =>
      e2.score < e1.score ∨ (e1.score = e2.score ∧ e2.doc ≤ e1.doc)) := by
  have h := claim_C3_topk_selector ["a", "b"] [(1 : ℚ), 1] 5 rfl
  exact ⟨h.1, h.2.1, h.2.2.1⟩

theorem claim_C5_witness :
    (topk_reconstructed ["a", "b"] [(1 : ℚ), 2]
      (fun d => if d = "a" then some 2 else none) 2).length ≤ 2 ∧
    (topk_reconstructed ["a", "b"] [(1 : ℚ), 2]
      (fun d => if d = "a" then some 2 else none) 2).length = 2 := by
  have h := claim_C5_conservation ["a", "b"] [(1 : ℚ), 2]
    (fun d => if d = "a" then some 2 else none) 2
  exact ⟨h.1, h.2 (by decide)⟩

theorem claim_C7_witness :
    bm25_score_doc ["b"] ["a"] 1 1 (fun _ => 0) 1.2 0.75 ≤
      bm25_score_doc ["a"] ["a"] 1 1 (fun _ => 0) 1.2 0.75 :=
  claim_C7_monotone_scoring ["a"] 1 1 (fun _ => 0) ["b"] ["a"] "a"
    (fun _ => Nat.zero_le 1) zero_le_one rfl (by decide) (by decide)

theorem claim_C8_witness :
    0 ≤ bm25_score_doc ["a"] ["a"] 1 1 (fun _ => 0) 1.2 0.75 ∧
    bm25_score_doc ["b"] ["a"] 1 1 (fun _ => 0) 1.2 0.75 = 0 :=
  ⟨(claim_C8_nonneg_score ["a"] ["a"] 1 1 (fun _ => 0)
      (fun _ => Nat.zero_le 1) zero_le_one).1,
   (claim_C8_nonneg_score ["b"] ["a"] 1 1 (fun _ => 0)
      (fun _ => Nat.zero_le 1) zero_le_one).2 (by decide)⟩

theorem claim_C10_witness :
    0 < (((fun d => if d = "b" then some (-2) else none) :
      String → Option ℤ) "a").getD 1 :=
  (claim_C10_nonpositive_counts ["a", "b"] [(2 : ℚ), 1]
    (fun d => if d = "b" then some (-2) else none) 3).1
    ⟨1, (2 : ℚ), "a"⟩ (by decide)

end BM25Equiv
